import Mathlib

/-!
# OpenMM C wrapper interface (`examples/wrappers/OpenMM_CWrapper.h`)

A shallow embedding of the C wrapper header: its two enumerations, its unit
conversion constants, the table of `extern` function declarations, and the two
inline vector helpers, followed by theorems about them. The marshaling
operations on `OpenMM_Vec3Array` and `OpenMM_String`, which the header declares
but does not define, are modelled from the specification.

Conventions.
* C `int` enumerators are embedded as `Nat` values (all are non-negative).
* The unit constants are the exact rationals `ℚ` their initialisers denote;
  the value a C `double` stores for them is obtained with `binary64`, the
  IEEE-754 round-to-nearest-even function.
* The doubles the inline helper `OpenMM_Vec3_scale` computes with are values
  of the type `Double`: NaN, the two infinities, and the finite doubles by
  sign, exponent field and fraction field, with the IEEE-754 product.
* Caller memory (`double[3]`, `char*` buffers) is a function from addresses to
  cells; a store is a pointwise update.
-/

namespace OpenMM

/-! ## Enumerations (header lines 48-63) -/

/-- The enumeration `OpenMM_NonbondedForce_NonbondedMethod`. -/
inductive OpenMM_NonbondedForce_NonbondedMethod
  | OpenMM_NonbondedForce_NoCutoff
  | OpenMM_NonbondedForce_CutoffNonPeriodic
  | OpenMM_NonbondedForce_CutoffPeriodic
  | OpenMM_NonbondedForce_Ewald
  deriving DecidableEq, Repr

namespace OpenMM_NonbondedForce_NonbondedMethod

/-- The integer value the header gives each enumerator. -/
def val : OpenMM_NonbondedForce_NonbondedMethod → Nat
  | OpenMM_NonbondedForce_NoCutoff => 0
  | OpenMM_NonbondedForce_CutoffNonPeriodic => 1
  | OpenMM_NonbondedForce_CutoffPeriodic => 2
  | OpenMM_NonbondedForce_Ewald => 3

/-- Every enumerator of the type, in declaration order. -/
def all : List OpenMM_NonbondedForce_NonbondedMethod :=
  [OpenMM_NonbondedForce_NoCutoff, OpenMM_NonbondedForce_CutoffNonPeriodic,
   OpenMM_NonbondedForce_CutoffPeriodic, OpenMM_NonbondedForce_Ewald]

end OpenMM_NonbondedForce_NonbondedMethod

/-- The enumeration `OpenMM_State_DataType`. -/
inductive OpenMM_State_DataType
  | OpenMM_State_Positions
  | OpenMM_State_Velocities
  | OpenMM_State_Forces
  | OpenMM_State_Energy
  | OpenMM_State_Parameters
  deriving DecidableEq, Repr

namespace OpenMM_State_DataType

/-- The integer value the header gives each enumerator. -/
def val : OpenMM_State_DataType → Nat
  | OpenMM_State_Positions => 1
  | OpenMM_State_Velocities => 2
  | OpenMM_State_Forces => 4
  | OpenMM_State_Energy => 8
  | OpenMM_State_Parameters => 16

/-- Every enumerator of the type, in declaration order. -/
def all : List OpenMM_State_DataType :=
  [OpenMM_State_Positions, OpenMM_State_Velocities, OpenMM_State_Forces,
   OpenMM_State_Energy, OpenMM_State_Parameters]

end OpenMM_State_DataType

/-- The `int types` argument of `OpenMM_Context_createState` built the way a
caller builds it: the bitwise OR (`|`) of the listed flags, starting from 0. -/
def typesMask (flags : List OpenMM_State_DataType) : Nat :=
  flags.foldl (fun m f => m ||| f.val) 0

/-- Position of the single set bit of a flag (proof device for the mask lemmas). -/
def bitIndex : OpenMM_State_DataType → Nat
  | .OpenMM_State_Positions => 0
  | .OpenMM_State_Velocities => 1
  | .OpenMM_State_Forces => 2
  | .OpenMM_State_Energy => 3
  | .OpenMM_State_Parameters => 4

/-! ## Unit conversion constants (header lines 65-105)

Each constant is the exact rational its initialiser denotes. -/

/-- The number of nanometers in an Angstrom. -/
def OpenMM_NmPerAngstrom : ℚ := 0.1
/-- The number of Angstroms in a nanometer. -/
def OpenMM_AngstromsPerNm : ℚ := 10.0
/-- The number of picoseconds in a femtosecond. -/
def OpenMM_PsPerFs : ℚ := 0.001
/-- The number of femtoseconds in a picosecond. -/
def OpenMM_FsPerPs : ℚ := 1000.0
/-- The number of kJ in a kcal. -/
def OpenMM_KJPerKcal : ℚ := 4.184
/-- The number of kcal in a kJ. -/
def OpenMM_KcalPerKJ : ℚ := 1.0 / 4.184
/-- The van der Waals radius to Lennard-Jones sigma factor; the header comment
gives its meaning as `2*pow(2, -1/6)`. -/
def OpenMM_SigmaPerVdwRadius : ℚ := 1.78179743628068

/-! ## IEEE-754 binary64 rounding

The constants are stored in C `double`s. `binary64 x` is the double nearest to
the rational `x` (round to nearest, ties to even), as a rational; it is `none`
when `x` lies outside the normal range (overflow and subnormals are not
modelled). Everything is computed on naturals and integers. -/

/-- Nearest integer to `n / d`, ties to the even neighbour. -/
def roundNearestEven (n d : Nat) : Nat :=
  let q := n / d
  let r := n % d
  if 2 * r < d then q else if d < 2 * r then q + 1 else if q % 2 = 0 then q else q + 1

/-- Position of the leading binary digit of `n`: `log2Fuel n n` is the `k` with
`2^k ≤ n < 2^(k+1)` for positive `n` (the first argument bounds the recursion). -/
def log2Fuel : Nat → Nat → Nat
  | 0, _ => 0
  | fuel + 1, n => if n < 2 then 0 else log2Fuel fuel (n / 2) + 1

/-- The integer `k` with `2^k ≤ n / d < 2^(k+1)`, for positive `n` and `d`. -/
def floorLog2 (n d : Nat) : Int :=
  let k : Int := (log2Fuel n n : Int) - (log2Fuel d d : Int)
  if k ≥ 0 then (if d * 2 ^ k.toNat ≤ n then k else k - 1)
  else (if d ≤ n * 2 ^ (-k).toNat then k else k - 1)

/-- Significand `m` (with `2^52 ≤ m < 2^53`) and exponent `e` of the double
nearest to `n / d`: the value is `m * 2^e`. -/
def binary64Parts (n d : Nat) : Nat × Int :=
  let e := floorLog2 n d - 52
  let m := if e ≥ 0 then roundNearestEven n (d * 2 ^ e.toNat)
           else roundNearestEven (n * 2 ^ (-e).toNat) d
  if m = 2 ^ 53 then (2 ^ 52, e + 1) else (m, e)

/-- The rational `m * 2^e`. -/
def partsToRat (p : Nat × Int) : ℚ :=
  if p.2 ≥ 0 then (p.1 : ℚ) * ((2 ^ p.2.toNat : Nat) : ℚ)
  else (p.1 : ℚ) / ((2 ^ (-p.2).toNat : Nat) : ℚ)

/-- Conversion of an exact value to `double`. -/
def binary64 (x : ℚ) : Option ℚ :=
  if x = 0 then some 0
  else
    let p := binary64Parts x.num.natAbs x.den
    if -1022 ≤ p.2 + 52 ∧ p.2 + 52 ≤ 1023 then
      some (if 0 < x then partsToRat p else - partsToRat p)
    else none

/-- The C expression `a * b` on doubles. -/
def dmul (a b : ℚ) : Option ℚ := binary64 (a * b)

/-- The C expression `a / b` on doubles (a zero divisor gives no finite value). -/
def ddiv (a b : ℚ) : Option ℚ := if b = 0 then none else binary64 (a / b)

/-- The double stored by `static const double c = <literal>;`. -/
def doubleConst (literal : ℚ) : Option ℚ := binary64 literal

/-- The double stored in `OpenMM_KcalPerKJ`, initialised by the constant
expression `1.0/4.184` evaluated in double arithmetic. -/
def OpenMM_KcalPerKJ_double : Option ℚ :=
  (binary64 1.0).bind fun one => (binary64 4.184).bind fun k => ddiv one k

/-- The C expression `a * b` for two stored doubles. -/
def doubleProduct (a b : Option ℚ) : Option ℚ :=
  a.bind fun x => b.bind fun y => dmul x y

/-! ## IEEE-754 binary64 data

A `double` by its fields. NaN payloads are not distinguished: there is one NaN.
A finite double with exponent field `expo` and fraction field `frac` has the
magnitude `frac * 2^(-1074)` when `expo = 0` (zero and the subnormals) and
`(2^52 + frac) * 2^(expo - 1075)` otherwise. -/

/-- A C `double`. -/
inductive Double
  | nan : Double
  | inf (neg : Bool) : Double
  | finite (neg : Bool) (expo : Fin 2047) (frac : Fin (2 ^ 52)) : Double
  deriving DecidableEq

namespace Double

/-- Integer significand of a finite double. -/
def sig (expo : Fin 2047) (frac : Fin (2 ^ 52)) : Nat :=
  if expo.val = 0 then frac.val else 2 ^ 52 + frac.val

/-- Exponent of the unit in the last place: the magnitude is `sig * 2^exp`. -/
def exp (expo : Fin 2047) : Int :=
  if expo.val = 0 then -1074 else (expo.val : Int) - 1075

/-- The finite double with the given fields; an exponent field beyond 2046 is
an overflow and gives the infinity of that sign. -/
def mkFinite (neg : Bool) (expo frac : Nat) : Double :=
  if h : expo < 2047 ∧ frac < 2 ^ 52 then finite neg ⟨expo, h.1⟩ ⟨frac, h.2⟩ else inf neg

/-- The double nearest to `± m * 2^e` (round to nearest, ties to even), with
gradual underflow to the subnormals and zero, and overflow to infinity. -/
def round (neg : Bool) (m : Nat) (e : Int) : Double :=
  if m = 0 then mkFinite neg 0 0
  else
    let n := m * 2 ^ e.toNat
    let d := 2 ^ (-e).toNat
    if floorLog2 n d < -1022 then
      let m' := roundNearestEven (n * 2 ^ 1074) d
      if m' < 2 ^ 52 then mkFinite neg 0 m' else mkFinite neg 1 (m' - 2 ^ 52)
    else
      let p := binary64Parts n d
      mkFinite neg (p.2 + 1075).toNat (p.1 - 2 ^ 52)

/-- The C expression `a * b` on doubles (IEEE-754 multiplication). -/
def mul : Double → Double → Double
  | nan, _ => nan
  | _, nan => nan
  | inf s, inf t => inf (xor s t)
  | inf s, finite t expo frac => if sig expo frac = 0 then nan else inf (xor s t)
  | finite s expo frac, inf t => if sig expo frac = 0 then nan else inf (xor s t)
  | finite s e1 f1, finite t e2 f2 =>
      round (xor s t) (sig e1 f1 * sig e2 f2) (exp e1 + exp e2)

instance : Mul Double := ⟨mul⟩

/-- The double `0.0`. -/
def zero : Double := mkFinite false 0 0

/-- The double `1.0`. -/
def one : Double := mkFinite false 1023 0

/-- The C test `x == 0.0`: true of `+0.0` and `-0.0` only. -/
def isZero : Double → Bool
  | finite _ expo frac => sig expo frac == 0
  | _ => false

/-- Neither NaN nor an infinity. -/
def isFinite : Double → Bool
  | finite _ _ _ => true
  | _ => false

end Double

/-! ## Caller memory -/

/-- Store `v` at address `a`. -/
def store {α : Type} (m : Nat → α) (a : Nat) (v : α) : Nat → α :=
  fun x => if x = a then v else m x

/-! ## Inline vector helpers (header lines 198-204)

`OpenMM_Vec3` is `double[3]`; a parameter of that type is the address of the
first of three consecutive cells. The cell type `α` and its product are
parameters: the code is the instance `α = Double`, and the same statements over
`α = ℚ` are the helper in exact arithmetic. -/

/-- The helper `static void OpenMM_Vec3_scale(const OpenMM_Vec3 in, double s, OpenMM_Vec3 out)`:
    `out[0] = in[0]*s; out[1] = in[1]*s; out[2] = in[2]*s;` -/
def OpenMM_Vec3_scale {α : Type} [Mul α] (mem : Nat → α) (inp : Nat) (s : α) (out : Nat) :
    Nat → α :=
  let mem := store mem (out + 0) (mem (inp + 0) * s)
  let mem := store mem (out + 1) (mem (inp + 1) * s)
  let mem := store mem (out + 2) (mem (inp + 2) * s)
  mem

/-- The helper `static void OpenMM_Vec3_set(double x, double y, double z, OpenMM_Vec3 out)`:
    `out[0] = x; out[1] = y; out[2] = z;` -/
def OpenMM_Vec3_set {α : Type} (mem : Nat → α) (x y z : α) (out : Nat) : Nat → α :=
  let mem := store mem (out + 0) x
  let mem := store mem (out + 1) y
  let mem := store mem (out + 2) z
  mem

/-! ## The `extern` function declarations (header lines 112-190)

C types are kept as the text the header writes, with `const` and the pointer
star included and blanks normalised. -/

/-- One `extern` declaration: return type, function name, parameter types. -/
structure Decl where
  ret : String
  name : String
  params : List String
  deriving DecidableEq, Repr

/-- Every `extern` declaration of the header, in order. -/
def declarations : List Decl := [
  ⟨"OpenMM_Vec3Array*", "OpenMM_Vec3Array_create", ["int"]⟩,
  ⟨"int", "OpenMM_Vec3Array_size", ["const OpenMM_Vec3Array*"]⟩,
  ⟨"void", "OpenMM_Vec3Array_resize", ["OpenMM_Vec3Array*", "int"]⟩,
  ⟨"void", "OpenMM_Vec3Array_destroy", ["OpenMM_Vec3Array*"]⟩,
  ⟨"void", "OpenMM_Vec3Array_append", ["OpenMM_Vec3Array*", "const double[3]"]⟩,
  ⟨"void", "OpenMM_Vec3Array_get", ["const OpenMM_Vec3Array*", "int", "double[3]"]⟩,
  ⟨"OpenMM_String*", "OpenMM_String_create", ["const char*"]⟩,
  ⟨"void", "OpenMM_String_destroy", ["OpenMM_String*"]⟩,
  ⟨"int", "OpenMM_String_length", ["const OpenMM_String*"]⟩,
  ⟨"const char*", "OpenMM_String_getAsC", ["const OpenMM_String*"]⟩,
  ⟨"void", "OpenMM_String_get", ["const OpenMM_String*", "char*", "int"]⟩,
  ⟨"void", "OpenMM_String_set", ["OpenMM_String*", "const char*"]⟩,
  ⟨"void", "OpenMM_Platform_loadPluginsFromDirectory", ["const char*"]⟩,
  ⟨"const char*", "OpenMM_Platform_getDefaultPluginsDirectory", []⟩,
  ⟨"OpenMM_System*", "OpenMM_System_create", []⟩,
  ⟨"void", "OpenMM_System_destroy", ["OpenMM_System*"]⟩,
  ⟨"void", "OpenMM_System_addForce", ["OpenMM_System*", "OpenMM_Force*"]⟩,
  ⟨"void", "OpenMM_System_addParticle", ["OpenMM_System*", "double"]⟩,
  ⟨"OpenMM_NonbondedForce*", "OpenMM_NonbondedForce_create", []⟩,
  ⟨"void", "OpenMM_NonbondedForce_destroy", ["OpenMM_NonbondedForce*"]⟩,
  ⟨"void", "OpenMM_NonbondedForce_setNonbondedMethod",
    ["OpenMM_NonbondedForce*", "OpenMM_NonbondedForce_NonbondedMethod"]⟩,
  ⟨"void", "OpenMM_NonbondedForce_setCutoffDistance", ["OpenMM_NonbondedForce*", "double"]⟩,
  ⟨"void", "OpenMM_NonbondedForce_setPeriodicBoxVectors",
    ["OpenMM_NonbondedForce*", "const OpenMM_Vec3", "const OpenMM_Vec3", "const OpenMM_Vec3"]⟩,
  ⟨"void", "OpenMM_NonbondedForce_addParticle",
    ["OpenMM_NonbondedForce*", "double", "double", "double"]⟩,
  ⟨"OpenMM_GBSAOBCForce*", "OpenMM_GBSAOBCForce_create", []⟩,
  ⟨"void", "OpenMM_GBSAOBCForce_destroy", ["OpenMM_GBSAOBCForce*"]⟩,
  ⟨"void", "OpenMM_GBSAOBCForce_setSolventDielectric", ["OpenMM_GBSAOBCForce*", "double"]⟩,
  ⟨"void", "OpenMM_GBSAOBCForce_setSoluteDielectric", ["OpenMM_GBSAOBCForce*", "double"]⟩,
  ⟨"void", "OpenMM_GBSAOBCForce_addParticle",
    ["OpenMM_GBSAOBCForce*", "double", "double", "double"]⟩,
  ⟨"void", "OpenMM_Integrator_step", ["OpenMM_Integrator*", "int"]⟩,
  ⟨"void", "OpenMM_Integrator_destroy", ["OpenMM_Integrator*"]⟩,
  ⟨"OpenMM_VerletIntegrator*", "OpenMM_VerletIntegrator_create", ["double"]⟩,
  ⟨"void", "OpenMM_VerletIntegrator_destroy", ["OpenMM_VerletIntegrator*"]⟩,
  ⟨"void", "OpenMM_VerletIntegrator_step", ["OpenMM_VerletIntegrator*", "int"]⟩,
  ⟨"OpenMM_LangevinIntegrator*", "OpenMM_LangevinIntegrator_create",
    ["double", "double", "double"]⟩,
  ⟨"void", "OpenMM_VLangevinIntegrator_destroy", ["OpenMM_LangevinIntegrator*"]⟩,
  ⟨"void", "OpenMM_LangevinIntegrator_step", ["OpenMM_LangevinIntegrator*", "int"]⟩,
  ⟨"OpenMM_Context*", "OpenMM_Context_create", ["OpenMM_System*", "OpenMM_Integrator*"]⟩,
  ⟨"void", "OpenMM_Context_destroy", ["OpenMM_Context*"]⟩,
  ⟨"void", "OpenMM_Context_setPositions", ["OpenMM_Context*", "const OpenMM_Vec3Array*"]⟩,
  ⟨"void", "OpenMM_Context_setVelocities", ["OpenMM_Context*", "const OpenMM_Vec3Array*"]⟩,
  ⟨"OpenMM_State*", "OpenMM_Context_createState", ["const OpenMM_Context*", "int"]⟩,
  ⟨"const char*", "OpenMM_Context_getPlatformName", ["const OpenMM_Context*"]⟩,
  ⟨"double", "OpenMM_Context_getTime", ["OpenMM_Context*"]⟩,
  ⟨"void", "OpenMM_State_destroy", ["OpenMM_State*"]⟩,
  ⟨"double", "OpenMM_State_getTime", ["const OpenMM_State*"]⟩,
  ⟨"double", "OpenMM_State_getPotentialEnergy", ["const OpenMM_State*"]⟩,
  ⟨"double", "OpenMM_State_getKineticEnergy", ["const OpenMM_State*"]⟩,
  ⟨"const OpenMM_Vec3Array*", "OpenMM_State_getPositions", ["const OpenMM_State*"]⟩,
  ⟨"const OpenMM_Vec3Array*", "OpenMM_State_getVelocities", ["const OpenMM_State*"]⟩]

/-- The opaque handle types `OpenMM_X` the header introduces with
`typedef struct OpenMM_X_s OpenMM_X;` (lines 25-56), by `X`, in order. -/
def handleTypes : List String :=
  ["System", "Context", "Vec3Array", "String", "Integrator", "VerletIntegrator",
   "LangevinIntegrator", "Force", "NonbondedForce", "GBSAOBCForce", "State"]

/-- The C type `OpenMM_X*`. -/
def pointerTo (X : String) : String := "OpenMM_" ++ X ++ "*"

/-- The header declares a constructor `OpenMM_X* OpenMM_X_create(...)`. -/
def declaresCreate (X : String) : Bool :=
  declarations.any fun d => d.name == "OpenMM_" ++ X ++ "_create" && d.ret == pointerTo X

/-- The header declares a destructor `void OpenMM_X_destroy(OpenMM_X*)`. -/
def declaresDestroy (X : String) : Bool :=
  declarations.any fun d =>
    d.name == "OpenMM_" ++ X ++ "_destroy" && d.ret == "void" && d.params == [pointerTo X]

/-- The names of the declared `void` functions whose only parameter is `OpenMM_X*`. -/
def voidFunctionsOfPointer (X : String) : List String :=
  (declarations.filter fun d => d.ret == "void" && d.params == [pointerTo X]).map Decl.name

/-! ## Marshaling types: `OpenMM_Vec3Array` and `OpenMM_String`

The header only declares these functions (`extern`, lines 112-126); their
bodies live in the wrapper's C++ translation unit, which is not part of the
sources at hand. The definitions below follow the specification's description
of each operation. -/

/-- Modelled from the spec: the body of the opaque type `OpenMM_Vec3Array` is
missing; the spec calls it an ordered, resizable sequence of 3-component double
vectors with value semantics. -/
structure OpenMM_Vec3Array where
  elems : List (ℚ × ℚ × ℚ)
  deriving DecidableEq

/-- Modelled from the spec: the body of `OpenMM_Vec3Array_create` is missing;
"create(length) → array of given size, elements zero-initialized". The length
is a natural number: the spec says nothing about a negative `int n`. -/
def OpenMM_Vec3Array_create (n : Nat) : OpenMM_Vec3Array :=
  ⟨List.replicate n (0, 0, 0)⟩

/-- Modelled from the spec: the body of `OpenMM_Vec3Array_size` is missing;
"size() → current length". -/
def OpenMM_Vec3Array_size (a : OpenMM_Vec3Array) : Nat :=
  a.elems.length

/-- Modelled from the spec: the body of `OpenMM_Vec3Array_append` is missing;
"append(v) → push one 3-vector". The `const double[3]` argument is taken by
value. -/
def OpenMM_Vec3Array_append (a : OpenMM_Vec3Array) (v : ℚ × ℚ × ℚ) : OpenMM_Vec3Array :=
  ⟨a.elems ++ [v]⟩

/-- Modelled from the spec: the body of `OpenMM_Vec3Array_get` is missing;
"get(i, out) → copy element i into caller-supplied 3-element buffer, undefined
if i is out of range". The buffer is the three cells of caller memory starting
at `out`; an out-of-range index has no defined result (`none`). -/
def OpenMM_Vec3Array_get (a : OpenMM_Vec3Array) (i : Nat) (mem : Nat → ℚ) (out : Nat) :
    Option (Nat → ℚ) :=
  match a.elems.get? i with
  | some v => some (store (store (store mem (out + 0) v.1) (out + 1) v.2.1) (out + 2) v.2.2)
  | none => none

/-- Modelled from the spec: the body of the opaque type `OpenMM_String` is
missing; the spec calls it a resizable byte buffer exposing a null-terminated
view. `bytes` is the content, without the terminator. -/
structure OpenMM_String where
  bytes : List Nat
  deriving DecidableEq

/-- Modelled from the spec: the body of `OpenMM_String_length` is missing;
"length()" is the number of content bytes. -/
def OpenMM_String_length (s : OpenMM_String) : Nat :=
  s.bytes.length

/-- Modelled from the spec: the body of `OpenMM_String_get` is missing;
"get(buf, buflen) → bounded copy into caller buffer, truncating safely at
buflen−1 and always null-terminating". `buf i` is the byte at `buf[i]` (indices
at or beyond `buflen` stand for the memory after the buffer). The content bytes
that fit in `buflen - 1` cells are stored in order, then the terminator 0.
For `buflen ≤ 0`, where no terminator fits, nothing is stored. -/
def OpenMM_String_get (s : OpenMM_String) (buf : Nat → Nat) (buflen : Int) : Nat → Nat :=
  if buflen ≤ 0 then buf
  else
    let n := min s.bytes.length (buflen.toNat - 1)
    let copied := (List.range n).foldl (fun m i => store m i (s.bytes.getD i 0)) buf
    store copied n 0

/-! ## Theorems -/

theorem val_eq_two_pow (f : OpenMM_State_DataType) : f.val = 2 ^ bitIndex f := by
  cases f <;> rfl

theorem bitIndex_injective : Function.Injective bitIndex := by
  intro a b h
  cases a <;> cases b <;> first | rfl | (exact absurd h (by decide))

theorem bitIndex_lt (f : OpenMM_State_DataType) : bitIndex f < 5 := by
  cases f <;> decide

theorem foldl_or_testBit (flags : List OpenMM_State_DataType) (m i : Nat) :
    (flags.foldl (fun m f => m ||| f.val) m).testBit i
      = (m.testBit i || flags.any (fun f => f.val.testBit i)) := by
  induction flags generalizing m with
  | nil => simp
  | cons f fs ih => simp [ih, Bool.or_assoc]

theorem typesMask_testBit (flags : List OpenMM_State_DataType) (i : Nat) :
    (typesMask flags).testBit i = flags.any (fun f => decide (bitIndex f = i)) := by
  unfold typesMask
  rw [foldl_or_testBit]
  simp [val_eq_two_pow, Nat.testBit_two_pow]

theorem typesMask_testBit_bitIndex (flags : List OpenMM_State_DataType)
    (f : OpenMM_State_DataType) :
    (typesMask flags).testBit (bitIndex f) = true ↔ f ∈ flags := by
  rw [typesMask_testBit]
  simp only [List.any_eq_true, decide_eq_true_eq]
  constructor
  · rintro ⟨g, hg, hgf⟩
    exact bitIndex_injective hgf ▸ hg
  · intro h
    exact ⟨f, h, rfl⟩

theorem and_two_pow_ne_zero (m k : Nat) : m &&& 2 ^ k ≠ 0 ↔ m.testBit k = true := by
  constructor
  · intro h
    by_contra hk
    apply h
    apply Nat.eq_of_testBit_eq
    intro i
    simp only [Nat.testBit_and, Nat.testBit_two_pow, Nat.zero_testBit]
    by_cases hki : k = i
    · subst hki; simp [hk]
    · simp [hki]
  · intro h h0
    have := congrArg (fun n => n.testBit k) h0
    simp [Nat.testBit_two_pow_self, h] at this

theorem typesMask_lt (flags : List OpenMM_State_DataType) : typesMask flags < 2 ^ 5 := by
  apply Nat.lt_pow_two_of_testBit
  intro i hi
  rw [typesMask_testBit]
  simp only [List.any_eq_false, decide_eq_true_eq]
  intro g _ hg
  have := bitIndex_lt g
  omega

/-- C1: `OpenMM_State_DataType` has exactly five members (the list `all` is
complete, duplicate-free and of length 5) and their values are
Positions = 1, Velocities = 2, Forces = 4, Energy = 8, Parameters = 16. -/
theorem C1_state_datatype_values :
    (∀ d : OpenMM_State_DataType, d ∈ OpenMM_State_DataType.all)
    ∧ OpenMM_State_DataType.all.Nodup
    ∧ OpenMM_State_DataType.all.length = 5
    ∧ OpenMM_State_DataType.OpenMM_State_Positions.val = 1
    ∧ OpenMM_State_DataType.OpenMM_State_Velocities.val = 2
    ∧ OpenMM_State_DataType.OpenMM_State_Forces.val = 4
    ∧ OpenMM_State_DataType.OpenMM_State_Energy.val = 8
    ∧ OpenMM_State_DataType.OpenMM_State_Parameters.val = 16 := by
  refine ⟨?_, by decide, rfl, rfl, rfl, rfl, rfl, rfl⟩
  intro d
  cases d <;> decide

/-- C2: `OpenMM_NonbondedForce_NonbondedMethod` has exactly four members (the
list `all` is complete, duplicate-free and of length 4) with the values
NoCutoff = 0, CutoffNonPeriodic = 1, CutoffPeriodic = 2, Ewald = 3; the map to
integers is injective and its image is exactly the set {0, 1, 2, 3}. -/
theorem C2_nonbonded_method_values :
    (∀ m : OpenMM_NonbondedForce_NonbondedMethod,
        m ∈ OpenMM_NonbondedForce_NonbondedMethod.all)
    ∧ OpenMM_NonbondedForce_NonbondedMethod.all.Nodup
    ∧ OpenMM_NonbondedForce_NonbondedMethod.all.length = 4
    ∧ OpenMM_NonbondedForce_NonbondedMethod.OpenMM_NonbondedForce_NoCutoff.val = 0
    ∧ OpenMM_NonbondedForce_NonbondedMethod.OpenMM_NonbondedForce_CutoffNonPeriodic.val = 1
    ∧ OpenMM_NonbondedForce_NonbondedMethod.OpenMM_NonbondedForce_CutoffPeriodic.val = 2
    ∧ OpenMM_NonbondedForce_NonbondedMethod.OpenMM_NonbondedForce_Ewald.val = 3
    ∧ Function.Injective OpenMM_NonbondedForce_NonbondedMethod.val
    ∧ Set.range OpenMM_NonbondedForce_NonbondedMethod.val = {0, 1, 2, 3} := by
  refine ⟨?_, by decide, rfl, rfl, rfl, rfl, rfl, ?_, ?_⟩
  · intro m
    cases m <;> decide
  · intro a b h
    cases a <;> cases b <;> first | rfl | (exact absurd h (by decide))
  · ext n
    simp only [Set.mem_range, Set.mem_insert_iff, Set.mem_singleton_iff]
    constructor
    · rintro ⟨m, rfl⟩
      cases m <;> simp [OpenMM_NonbondedForce_NonbondedMethod.val]
    · rintro (rfl | rfl | rfl | rfl)
      · exact ⟨.OpenMM_NonbondedForce_NoCutoff, rfl⟩
      · exact ⟨.OpenMM_NonbondedForce_CutoffNonPeriodic, rfl⟩
      · exact ⟨.OpenMM_NonbondedForce_CutoffPeriodic, rfl⟩
      · exact ⟨.OpenMM_NonbondedForce_Ewald, rfl⟩

/-- C8: the five `OpenMM_State_DataType` values are pairwise-disjoint single-bit
flags; for any two selections `A`, `B` of flags (lists, so order and repetition
are free) the OR of `A` equals the OR of `B` iff `A` and `B` are the same subset;
`(OR of A) & f` is non-zero iff `f` is in `A`; and every such mask is at most 31. -/
theorem C8_state_flags_combinable :
    (∀ f : OpenMM_State_DataType, ∃ k, k < 5 ∧ f.val = 2 ^ k)
    ∧ (∀ f g : OpenMM_State_DataType, f ≠ g → f.val &&& g.val = 0)
    ∧ (∀ A B : List OpenMM_State_DataType,
        typesMask A = typesMask B ↔ A.toFinset = B.toFinset)
    ∧ (∀ (f : OpenMM_State_DataType) (A : List OpenMM_State_DataType),
        typesMask A &&& f.val ≠ 0 ↔ f ∈ A)
    ∧ (∀ A : List OpenMM_State_DataType, typesMask A ≤ 31) := by
  refine ⟨?_, ?_, ?_, ?_, ?_⟩
  · intro f
    exact ⟨bitIndex f, bitIndex_lt f, val_eq_two_pow f⟩
  · intro f g h
    cases f <;> cases g <;> first | rfl | (exact absurd rfl h)
  · intro A B
    constructor
    · intro h
      ext f
      simp only [List.mem_toFinset]
      rw [← typesMask_testBit_bitIndex A f, ← typesMask_testBit_bitIndex B f, h]
    · intro h
      apply Nat.eq_of_testBit_eq
      intro i
      rw [typesMask_testBit, typesMask_testBit]
      have hmem : ∀ f, f ∈ A ↔ f ∈ B := by
        intro f
        have := congrArg (fun s => f ∈ s) h
        simpa only [List.mem_toFinset, eq_iff_iff] using this
      rw [Bool.eq_iff_iff]
      simp only [List.any_eq_true, decide_eq_true_eq]
      constructor
      · rintro ⟨g, hg, hgi⟩
        exact ⟨g, (hmem g).1 hg, hgi⟩
      · rintro ⟨g, hg, hgi⟩
        exact ⟨g, (hmem g).2 hg, hgi⟩
  · intro f A
    rw [val_eq_two_pow, and_two_pow_ne_zero, typesMask_testBit_bitIndex]
  · intro A
    have := typesMask_lt A
    omega

theorem store_same {α : Type} (m : Nat → α) (a : Nat) (v : α) : store m a v a = v := by
  simp [store]

theorem store_other {α : Type} (m : Nat → α) (a x : Nat) (v : α) (h : x ≠ a) :
    store m a v x = m x := by
  simp [store, h]

theorem store3_frame {α : Type} (mem : Nat → α) (out : Nat) (a b c : α) (x : Nat)
    (hx : x < out ∨ out + 3 ≤ x) :
    store (store (store mem (out + 0) a) (out + 1) b) (out + 2) c x = mem x := by
  rw [store_other _ _ _ _ (by omega), store_other _ _ _ _ (by omega),
    store_other _ _ _ _ (by omega)]

theorem foldl_append_elems (vs : List (ℚ × ℚ × ℚ)) (a : OpenMM_Vec3Array) :
    (vs.foldl OpenMM_Vec3Array_append a).elems = a.elems ++ vs := by
  induction vs generalizing a with
  | nil => simp
  | cons v vs ih => simp [ih, OpenMM_Vec3Array_append]

theorem foldl_store_range (content : List Nat) (buf : Nat → Nat) (n : Nat) (x : Nat) :
    (List.range n).foldl (fun m i => store m i (content.getD i 0)) buf x
      = if x < n then content.getD x 0 else buf x := by
  induction n with
  | zero => simp
  | succ n ih =>
    rw [List.range_succ, List.foldl_append]
    simp only [List.foldl_cons, List.foldl_nil]
    by_cases hx : x = n
    · subst hx
      simp [store]
    · rw [store_other _ _ _ _ hx, ih]
      by_cases h1 : x < n
      · simp [h1, Nat.lt_succ_of_lt h1]
      · have h2 : ¬ x < n + 1 := by omega
        simp [h1, h2]

theorem String_get_apply (s : OpenMM_String) (buf : Nat → Nat) (buflen : Int)
    (hpos : 0 < buflen) (x : Nat) :
    OpenMM_String_get s buf buflen x
      = if x < min s.bytes.length (buflen.toNat - 1) then s.bytes.getD x 0
        else if x = min s.bytes.length (buflen.toNat - 1) then 0 else buf x := by
  unfold OpenMM_String_get
  rw [if_neg (by omega)]
  simp only [store]
  by_cases hx : x = min s.bytes.length (buflen.toNat - 1)
  · rw [if_pos hx, if_neg (by omega), if_pos hx]
  · rw [if_neg hx, if_neg hx, foldl_store_range]

/-- C5: for every `n`, the size of `OpenMM_Vec3Array_create(n)` is `n`, and for
every index `i < n`, `OpenMM_Vec3Array_get` on the new array succeeds and leaves
0 in each of the three cells of the caller's buffer (and every other cell of
the caller's memory as it was). -/
theorem C5_create_size_and_zero (n : Nat) :
    OpenMM_Vec3Array_size (OpenMM_Vec3Array_create n) = n
    ∧ ∀ i, i < n → ∀ (mem : Nat → ℚ) (out : Nat),
        ∃ mem', OpenMM_Vec3Array_get (OpenMM_Vec3Array_create n) i mem out = some mem'
          ∧ mem' out = 0 ∧ mem' (out + 1) = 0 ∧ mem' (out + 2) = 0
          ∧ ∀ x, (x < out ∨ out + 3 ≤ x) → mem' x = mem x := by
  refine ⟨by simp [OpenMM_Vec3Array_size, OpenMM_Vec3Array_create], ?_⟩
  intro i hi mem out
  have hget : (OpenMM_Vec3Array_create n).elems.get? i = some (0, 0, 0) := by
    simp [OpenMM_Vec3Array_create, List.getElem?_replicate, hi]
  refine ⟨store (store (store mem (out + 0) 0) (out + 1) 0) (out + 2) 0,
    by simp only [OpenMM_Vec3Array_get, hget], ?_, ?_, ?_, ?_⟩
  · simp [store]
  · simp [store]
  · simp [store]
  · intro x hx
    exact store3_frame mem out _ _ _ x hx

/-- C6: after appending the vectors `vs` one by one to an empty array
(`OpenMM_Vec3Array_create(0)`), the size is the number `k` of appends, and for
every `i < k`, `OpenMM_Vec3Array_get(i)` succeeds and stores the components of
the `i`-th appended vector in the caller's three cells. -/
theorem C6_append_sequence (vs : List (ℚ × ℚ × ℚ)) :
    OpenMM_Vec3Array_size (vs.foldl OpenMM_Vec3Array_append (OpenMM_Vec3Array_create 0))
        = vs.length
    ∧ ∀ (i : Nat) (hi : i < vs.length) (mem : Nat → ℚ) (out : Nat),
        ∃ mem', OpenMM_Vec3Array_get
            (vs.foldl OpenMM_Vec3Array_append (OpenMM_Vec3Array_create 0)) i mem out = some mem'
          ∧ mem' out = (vs.get ⟨i, hi⟩).1
          ∧ mem' (out + 1) = (vs.get ⟨i, hi⟩).2.1
          ∧ mem' (out + 2) = (vs.get ⟨i, hi⟩).2.2
          ∧ ∀ x, (x < out ∨ out + 3 ≤ x) → mem' x = mem x := by
  have helems : (vs.foldl OpenMM_Vec3Array_append (OpenMM_Vec3Array_create 0)).elems = vs := by
    rw [foldl_append_elems]
    simp [OpenMM_Vec3Array_create]
  refine ⟨by simp [OpenMM_Vec3Array_size, helems], ?_⟩
  intro i hi mem out
  have hget : (vs.foldl OpenMM_Vec3Array_append (OpenMM_Vec3Array_create 0)).elems.get? i
      = some (vs.get ⟨i, hi⟩) := by
    rw [helems]
    exact List.get?_eq_get hi
  refine ⟨store (store (store mem (out + 0) (vs.get ⟨i, hi⟩).1) (out + 1)
      (vs.get ⟨i, hi⟩).2.1) (out + 2) (vs.get ⟨i, hi⟩).2.2,
    by simp only [OpenMM_Vec3Array_get, hget], ?_, ?_, ?_, ?_⟩
  · simp [store]
  · simp [store]
  · simp [store]
  · intro x hx
    exact store3_frame mem out _ _ _ x hx

/-- C7: for a string of length `L` and a buffer length `k ≥ 1`: if `k < L + 1`,
`OpenMM_String_get(buf, k)` leaves the first `k - 1` content bytes in
`buf[0..k-2]`, the terminator 0 in `buf[k-1]`, and every cell at or beyond index
`k` as it was; if `k ≥ L + 1`, it leaves the whole content in `buf[0..L-1]`, the
terminator in `buf[L]`, and again every cell at or beyond index `k` as it was. -/
theorem C7_string_get_bounded (s : OpenMM_String) (buf : Nat → Nat) (k : Nat) (hk : 1 ≤ k) :
    (k < OpenMM_String_length s + 1 →
        (∀ i, i < k - 1 → some (OpenMM_String_get s buf k i) = s.bytes.get? i)
        ∧ OpenMM_String_get s buf k (k - 1) = 0
        ∧ ∀ i, k ≤ i → OpenMM_String_get s buf k i = buf i)
    ∧ (OpenMM_String_length s + 1 ≤ k →
        (∀ i, i < OpenMM_String_length s →
            some (OpenMM_String_get s buf k i) = s.bytes.get? i)
        ∧ OpenMM_String_get s buf k (OpenMM_String_length s) = 0
        ∧ ∀ i, k ≤ i → OpenMM_String_get s buf k i = buf i) := by
  have hpos : (0 : Int) < (k : Int) := by omega
  have htn : ((k : Int)).toNat = k := Int.toNat_natCast k
  unfold OpenMM_String_length
  constructor
  · intro hlt
    have hmin : min s.bytes.length (k - 1) = k - 1 := by omega
    refine ⟨?_, ?_, ?_⟩
    · intro i hi
      have hil : i < s.bytes.length := by omega
      rw [String_get_apply s buf k hpos, htn, hmin, if_pos hi, List.getD_eq_getElem _ _ hil,
        List.get?_eq_get hil]
      rfl
    · rw [String_get_apply s buf k hpos, htn, hmin, if_neg (by omega), if_pos rfl]
    · intro i hi
      rw [String_get_apply s buf k hpos, htn, hmin, if_neg (by omega), if_neg (by omega)]
  · intro hge
    have hmin : min s.bytes.length (k - 1) = s.bytes.length := by omega
    refine ⟨?_, ?_, ?_⟩
    · intro i hi
      rw [String_get_apply s buf k hpos, htn, hmin, if_pos hi, List.getD_eq_getElem _ _ hi,
        List.get?_eq_get hi]
      rfl
    · rw [String_get_apply s buf k hpos, htn, hmin, if_neg (by omega), if_pos rfl]
    · intro i hi
      rw [String_get_apply s buf k hpos, htn, hmin, if_neg (by omega), if_neg (by omega)]

/-- Witness for C7: the content "hi!" (bytes 104, 105, 33) read into a
2-byte buffer pre-filled with 255. -/
theorem C7_string_get_bounded_witness :
    (1 ≤ 2)
    ∧ OpenMM_String_get ⟨[104, 105, 33]⟩ (fun _ => 255) 2 0 = 104
    ∧ OpenMM_String_get ⟨[104, 105, 33]⟩ (fun _ => 255) 2 1 = 0
    ∧ OpenMM_String_get ⟨[104, 105, 33]⟩ (fun _ => 255) 2 2 = 255 := by
  have h := (C7_string_get_bounded ⟨[104, 105, 33]⟩ (fun _ => 255) 2 (by decide)).1 (by decide)
  refine ⟨by decide, ?_, ?_, ?_⟩
  · have h0 := h.1 0 (by decide)
    simpa using h0
  · exact h.2.1
  · exact h.2.2 2 (by decide)

/-- C4 (evaluated on the header): `LangevinIntegrator` is a handle type with a
declared constructor `OpenMM_LangevinIntegrator_create`, but the header declares
no `OpenMM_LangevinIntegrator_destroy`: the only `void` function of one
`OpenMM_LangevinIntegrator*` is named `OpenMM_VLangevinIntegrator_destroy`.
The handle types with a constructor are the eight listed, and each of the other
seven has its `OpenMM_X_destroy(OpenMM_X*)`. -/
theorem C4_langevin_destroy_misnamed :
    declaresCreate "LangevinIntegrator" = true
    ∧ declaresDestroy "LangevinIntegrator" = false
    ∧ voidFunctionsOfPointer "LangevinIntegrator" = ["OpenMM_VLangevinIntegrator_destroy"]
    ∧ handleTypes.filter declaresCreate
        = ["System", "Context", "Vec3Array", "String", "VerletIntegrator",
           "LangevinIntegrator", "NonbondedForce", "GBSAOBCForce"]
    ∧ ∀ X ∈ handleTypes, declaresCreate X = true → X ≠ "LangevinIntegrator" →
        declaresDestroy X = true := by
  refine ⟨by decide, by decide, by decide, by decide, by decide⟩

/-! ### Soundness of the binary64 rounding model -/

theorem partsToRat_eq (m : Nat) (e : Int) : partsToRat (m, e) = (m : ℚ) * (2 : ℚ) ^ e := by
  unfold partsToRat
  by_cases h : e ≥ 0
  · obtain ⟨k, rfl⟩ := Int.eq_ofNat_of_zero_le h
    simp
  · have h' : 0 ≤ -e := by omega
    obtain ⟨k, hk⟩ := Int.eq_ofNat_of_zero_le h'
    have he : e = -(k : Int) := by omega
    subst he
    simp [h, div_eq_mul_inv]

theorem roundNearestEven_spec (n d : Nat) (hd : 0 < d) :
    2 * (roundNearestEven n d * d) ≤ 2 * n + d ∧ 2 * n ≤ 2 * (roundNearestEven n d * d) + d := by
  have hdiv := Nat.div_add_mod n d
  have hmod := Nat.mod_lt n hd
  have hmul : d * (n / d) = n / d * d := Nat.mul_comm _ _
  unfold roundNearestEven
  simp only
  split_ifs <;> (try rw [Nat.add_mul]) <;> omega

theorem log2Fuel_spec (fuel n : Nat) (hn : 0 < n) (hf : n ≤ fuel) :
    2 ^ log2Fuel fuel n ≤ n ∧ n < 2 ^ (log2Fuel fuel n + 1) := by
  induction fuel generalizing n with
  | zero => omega
  | succ fuel ih =>
    unfold log2Fuel
    by_cases h2 : n < 2
    · rw [if_pos h2]
      simp
      omega
    · rw [if_neg h2]
      have := ih (n / 2) (by omega) (by omega)
      rw [pow_succ, pow_succ (n := log2Fuel fuel (n / 2) + 1)]
      omega

/-- The comparison made by `floorLog2` decides `2^k ≤ n/d`. -/
theorem pow_le_frac_iff (n d : Nat) (hd : 0 < d) (k : Int) :
    (if k ≥ 0 then d * 2 ^ k.toNat ≤ n else d ≤ n * 2 ^ (-k).toNat)
      ↔ (2 : ℚ) ^ k ≤ (n : ℚ) / d := by
  have hdq : (0 : ℚ) < d := by exact_mod_cast hd
  rw [le_div_iff₀ hdq]
  by_cases h : k ≥ 0
  · obtain ⟨j, rfl⟩ := Int.eq_ofNat_of_zero_le h
    simp only [h, if_true, Int.toNat_ofNat, zpow_natCast]
    rw [← Nat.cast_le (α := ℚ)]
    push_cast
    rw [mul_comm]
  · have h' : 0 ≤ -k := by omega
    obtain ⟨j, hj⟩ := Int.eq_ofNat_of_zero_le h'
    have hk : k = -(j : Int) := by omega
    subst hk
    simp only [h, if_false, neg_neg, Int.toNat_ofNat, zpow_neg, zpow_natCast]
    rw [← Nat.cast_le (α := ℚ)]
    push_cast
    have hp : (0 : ℚ) < 2 ^ j := by positivity
    rw [inv_mul_le_iff₀ hp, mul_comm]

theorem floorLog2_spec (n d : Nat) (hn : 0 < n) (hd : 0 < d) :
    (2 : ℚ) ^ floorLog2 n d ≤ (n : ℚ) / d ∧ (n : ℚ) / d < (2 : ℚ) ^ (floorLog2 n d + 1) := by
  obtain ⟨ha1, ha2⟩ := log2Fuel_spec n n hn le_rfl
  obtain ⟨hb1, hb2⟩ := log2Fuel_spec d d hd le_rfl
  have hdq : (0 : ℚ) < d := by exact_mod_cast hd
  have hA1 : (2 : ℚ) ^ (log2Fuel n n) ≤ n := by exact_mod_cast ha1
  have hA2 : (n : ℚ) < 2 ^ (log2Fuel n n + 1) := by exact_mod_cast ha2
  have hB1 : (2 : ℚ) ^ (log2Fuel d d) ≤ d := by exact_mod_cast hb1
  have hB2 : (d : ℚ) < 2 ^ (log2Fuel d d + 1) := by exact_mod_cast hb2
  have h2 : (2 : ℚ) ≠ 0 := by norm_num
  -- bounds on n/d from the two leading-digit positions
  have hup : (n : ℚ) / d < (2 : ℚ) ^ ((log2Fuel n n : Int) - (log2Fuel d d : Int) + 1) := by
    rw [div_lt_iff₀ hdq]
    have hX : (2 : ℚ) ^ ((log2Fuel n n : Int) - (log2Fuel d d : Int) + 1)
        * 2 ^ (log2Fuel d d) = 2 ^ (log2Fuel n n + 1) := by
      rw [← zpow_natCast, ← zpow_natCast, ← zpow_add₀ h2]
      congr 1
      push_cast
      ring
    have hXpos : (0 : ℚ) < (2 : ℚ) ^ ((log2Fuel n n : Int) - (log2Fuel d d : Int) + 1) := by
      positivity
    calc (n : ℚ) < 2 ^ (log2Fuel n n + 1) := hA2
      _ = (2 : ℚ) ^ ((log2Fuel n n : Int) - (log2Fuel d d : Int) + 1)
            * 2 ^ (log2Fuel d d) := hX.symm
      _ ≤ _ := mul_le_mul_of_nonneg_left hB1 hXpos.le
  have hlo : (2 : ℚ) ^ ((log2Fuel n n : Int) - (log2Fuel d d : Int) - 1) ≤ (n : ℚ) / d := by
    rw [le_div_iff₀ hdq]
    have hX : (2 : ℚ) ^ ((log2Fuel n n : Int) - (log2Fuel d d : Int) - 1)
        * 2 ^ (log2Fuel d d + 1) = 2 ^ (log2Fuel n n) := by
      rw [← zpow_natCast, ← zpow_natCast, ← zpow_add₀ h2]
      congr 1
      push_cast
      ring
    have hXpos : (0 : ℚ) < (2 : ℚ) ^ ((log2Fuel n n : Int) - (log2Fuel d d : Int) - 1) := by
      positivity
    calc (2 : ℚ) ^ ((log2Fuel n n : Int) - (log2Fuel d d : Int) - 1) * d
        ≤ (2 : ℚ) ^ ((log2Fuel n n : Int) - (log2Fuel d d : Int) - 1)
            * 2 ^ (log2Fuel d d + 1) := mul_le_mul_of_nonneg_left hB2.le hXpos.le
      _ = 2 ^ (log2Fuel n n) := hX
      _ ≤ n := hA1
  have htest := pow_le_frac_iff n d hd ((log2Fuel n n : Int) - (log2Fuel d d : Int))
  have hdef : floorLog2 n d =
      if (if (log2Fuel n n : Int) - (log2Fuel d d : Int) ≥ 0
            then d * 2 ^ ((log2Fuel n n : Int) - (log2Fuel d d : Int)).toNat ≤ n
            else d ≤ n * 2 ^ (-((log2Fuel n n : Int) - (log2Fuel d d : Int))).toNat)
      then (log2Fuel n n : Int) - (log2Fuel d d : Int)
      else (log2Fuel n n : Int) - (log2Fuel d d : Int) - 1 := by
    unfold floorLog2
    simp only
    split_ifs <;> rfl
  rw [hdef]
  by_cases ht : (2 : ℚ) ^ ((log2Fuel n n : Int) - (log2Fuel d d : Int)) ≤ (n : ℚ) / d
  · rw [if_pos (htest.2 ht)]
    exact ⟨ht, hup⟩
  · rw [if_neg (fun h => ht (htest.1 h))]
    refine ⟨hlo, ?_⟩
    rw [sub_add_cancel]
    exact lt_of_not_le ht

theorem roundNearestEven_tie_even (n d : Nat) (htie : 2 * (n % d) = d) :
    roundNearestEven n d % 2 = 0 := by
  unfold roundNearestEven
  simp only
  split_ifs <;> omega

theorem roundNearestEven_abs (N D : Nat) (hD : 0 < D) :
    |(N : ℚ) / D - (roundNearestEven N D : ℚ)| ≤ 1 / 2 := by
  obtain ⟨h1, h2⟩ := roundNearestEven_spec N D hD
  have hDq : (0 : ℚ) < D := by exact_mod_cast hD
  have h1q : 2 * ((roundNearestEven N D : ℚ) * D) ≤ 2 * N + D := by exact_mod_cast h1
  have h2q : 2 * (N : ℚ) ≤ 2 * ((roundNearestEven N D : ℚ) * D) + D := by exact_mod_cast h2
  rw [abs_le]
  constructor
  · rw [le_sub_iff_add_le, le_div_iff₀ hDq]
    linarith
  · rw [sub_le_iff_le_add, div_le_iff₀ hDq]
    linarith

/-- The significand before normalisation is within 1/2 of `n/d * 2^(-e)`. -/
theorem significand_abs (n d : Nat) (hd : 0 < d) (e : Int) :
    |(n : ℚ) / d * (2 : ℚ) ^ (-e)
      - ((if e ≥ 0 then roundNearestEven n (d * 2 ^ e.toNat)
          else roundNearestEven (n * 2 ^ (-e).toNat) d : Nat) : ℚ)| ≤ 1 / 2 := by
  have hdq : (0 : ℚ) < d := by exact_mod_cast hd
  by_cases h : e ≥ 0
  · obtain ⟨j, rfl⟩ := Int.eq_ofNat_of_zero_le h
    simp only [h, if_true, Int.toNat_ofNat]
    have := roundNearestEven_abs n (d * 2 ^ j) (by positivity)
    have hx : (n : ℚ) / d * (2 : ℚ) ^ (-(j : Int)) = (n : ℚ) / ((d * 2 ^ j : Nat) : ℚ) := by
      rw [zpow_neg, zpow_natCast]
      push_cast
      field_simp
    rw [hx]
    exact this
  · have h' : 0 ≤ -e := by omega
    obtain ⟨j, hj⟩ := Int.eq_ofNat_of_zero_le h'
    have he : e = -(j : Int) := by omega
    subst he
    simp only [h, if_false, neg_neg, Int.toNat_ofNat]
    have := roundNearestEven_abs (n * 2 ^ j) d hd
    have hx : (n : ℚ) / d * (2 : ℚ) ^ (j : Int) = ((n * 2 ^ j : Nat) : ℚ) / d := by
      rw [zpow_natCast]
      push_cast
      field_simp
    rw [hx]
    exact this

/-- Soundness of the rounding: the significand is normalised and the result is
within half a unit in the last place of `n/d`. -/
theorem binary64Parts_spec (n d : Nat) (hn : 0 < n) (hd : 0 < d) :
    2 ^ 52 ≤ (binary64Parts n d).1 ∧ (binary64Parts n d).1 < 2 ^ 53
    ∧ |(n : ℚ) / d - ((binary64Parts n d).1 : ℚ) * (2 : ℚ) ^ (binary64Parts n d).2|
        ≤ (2 : ℚ) ^ (binary64Parts n d).2 / 2 := by
  obtain ⟨hl, hu⟩ := floorLog2_spec n d hn hd
  have habs := significand_abs n d hd (floorLog2 n d - 52)
  have h2 : (2 : ℚ) ≠ 0 := by norm_num
  set e := floorLog2 n d - 52 with he
  set m := (if e ≥ 0 then roundNearestEven n (d * 2 ^ e.toNat)
          else roundNearestEven (n * 2 ^ (-e).toNat) d) with hm
  have hpe : (0 : ℚ) < (2 : ℚ) ^ e := by positivity
  -- the scaled value lies in [2^52, 2^53)
  have hy1 : (2 : ℚ) ^ 52 ≤ (n : ℚ) / d * (2 : ℚ) ^ (-e) := by
    have : (2 : ℚ) ^ (52 : Int) * (2 : ℚ) ^ e = (2 : ℚ) ^ floorLog2 n d := by
      rw [← zpow_add₀ h2]; congr 1; omega
    rw [zpow_neg, ← div_eq_mul_inv, le_div_iff₀ hpe]
    calc (2 : ℚ) ^ 52 * (2 : ℚ) ^ e = (2 : ℚ) ^ floorLog2 n d := by exact_mod_cast this
      _ ≤ _ := hl
  have hy2 : (n : ℚ) / d * (2 : ℚ) ^ (-e) < (2 : ℚ) ^ 53 := by
    have : (2 : ℚ) ^ (53 : Int) * (2 : ℚ) ^ e = (2 : ℚ) ^ (floorLog2 n d + 1) := by
      rw [← zpow_add₀ h2]; congr 1; omega
    rw [zpow_neg, ← div_eq_mul_inv, div_lt_iff₀ hpe]
    calc (n : ℚ) / d < (2 : ℚ) ^ (floorLog2 n d + 1) := hu
      _ = (2 : ℚ) ^ 53 * (2 : ℚ) ^ e := by exact_mod_cast this.symm
  rw [abs_le] at habs
  have hm1 : 2 ^ 52 ≤ m := by
    have : ((2 ^ 52 : Nat) : ℚ) < (m : ℚ) + 1 := by push_cast; linarith [habs.2]
    have : 2 ^ 52 < m + 1 := by exact_mod_cast this
    omega
  have hm2 : m ≤ 2 ^ 53 := by
    have : (m : ℚ) < ((2 ^ 53 : Nat) : ℚ) + 1 := by push_cast; linarith [habs.1]
    have : m < 2 ^ 53 + 1 := by exact_mod_cast this
    omega
  -- the error before normalisation
  have herr : |(n : ℚ) / d - (m : ℚ) * (2 : ℚ) ^ e| ≤ (2 : ℚ) ^ e / 2 := by
    have hx : (n : ℚ) / d - (m : ℚ) * (2 : ℚ) ^ e
        = ((n : ℚ) / d * (2 : ℚ) ^ (-e) - m) * (2 : ℚ) ^ e := by
      rw [zpow_neg]; field_simp; ring
    rw [hx, abs_mul, abs_of_pos hpe]
    have := mul_le_mul_of_nonneg_right (abs_le.2 habs) hpe.le
    linarith
  have hdef : binary64Parts n d = if m = 2 ^ 53 then (2 ^ 52, e + 1) else (m, e) := rfl
  rw [hdef]
  by_cases h53 : m = 2 ^ 53
  · rw [if_pos h53]
    refine ⟨le_rfl, by norm_num, ?_⟩
    have hv : ((2 ^ 52 : Nat) : ℚ) * (2 : ℚ) ^ (e + 1) = (m : ℚ) * (2 : ℚ) ^ e := by
      rw [h53, zpow_add₀ h2]; push_cast; ring
    have hw : (2 : ℚ) ^ e / 2 ≤ (2 : ℚ) ^ (e + 1) / 2 := by
      rw [zpow_add₀ h2]; linarith
    simp only
    rw [hv]
    exact herr.trans hw
  · rw [if_neg h53]
    exact ⟨hm1, by omega, herr⟩

/-! ### The unit constants as doubles -/

/-- Evaluation rule for `binary64` at a positive fraction in lowest terms. -/
theorem binary64_eval (n d m : Nat) (e : Int) (hn : 0 < n) (hd : 0 < d)
    (hc : Nat.Coprime n d) (hparts : binary64Parts n d = (m, e))
    (hrange : -1022 ≤ e + 52 ∧ e + 52 ≤ 1023) :
    binary64 ((n : ℚ) / (d : ℚ)) = some (partsToRat (m, e)) := by
  have hpos : (0 : ℚ) < (n : ℚ) / d := by positivity
  have hnum : ((n : ℚ) / d).num = n := by
    have := Rat.num_div_eq_of_coprime (a := (n : ℤ)) (b := (d : ℤ))
      (by exact_mod_cast hd) (by simpa using hc)
    simpa using this
  have hden : ((n : ℚ) / d).den = d := by
    have := Rat.den_div_eq_of_coprime (a := (n : ℤ)) (b := (d : ℤ))
      (by exact_mod_cast hd) (by simpa using hc)
    simpa using this
  unfold binary64
  rw [if_neg hpos.ne', hnum, hden]
  simp only [Int.natAbs_ofNat, hparts, hrange, and_self, if_true, hpos]

theorem binary64_one : binary64 1 = some 1 := by
  have h := binary64_eval 1 1 4503599627370496 (-52) (by decide) (by decide) (by decide)
    (by decide!) (by decide)
  have h52 : Int.toNat 52 = 52 := rfl
  norm_num [partsToRat, h52] at h
  exact h

theorem binary64_NmPerAngstrom :
    binary64 OpenMM_NmPerAngstrom = some (3602879701896397 / 36028797018963968) := by
  have h := binary64_eval 1 10 7205759403792794 (-56) (by decide) (by decide) (by decide)
    (by decide!) (by decide)
  have h56 : Int.toNat 56 = 56 := rfl
  norm_num [partsToRat, h56] at h
  rw [← h]
  norm_num [OpenMM_NmPerAngstrom]

theorem binary64_AngstromsPerNm : binary64 OpenMM_AngstromsPerNm = some 10 := by
  have h := binary64_eval 10 1 5629499534213120 (-49) (by decide) (by decide) (by decide)
    (by decide!) (by decide)
  have h49 : Int.toNat 49 = 49 := rfl
  norm_num [partsToRat, h49] at h
  rw [← h]
  norm_num [OpenMM_AngstromsPerNm]

theorem binary64_PsPerFs :
    binary64 OpenMM_PsPerFs = some (1152921504606847 / 1152921504606846976) := by
  have h := binary64_eval 1 1000 4611686018427388 (-62) (by decide) (by decide) (by decide)
    (by decide!) (by decide)
  have h62 : Int.toNat 62 = 62 := rfl
  norm_num [partsToRat, h62] at h
  rw [← h]
  norm_num [OpenMM_PsPerFs]

theorem binary64_FsPerPs : binary64 OpenMM_FsPerPs = some 1000 := by
  have h := binary64_eval 1000 1 8796093022208000 (-43) (by decide) (by decide) (by decide)
    (by decide!) (by decide)
  have h43 : Int.toNat 43 = 43 := rfl
  norm_num [partsToRat, h43] at h
  rw [← h]
  norm_num [OpenMM_FsPerPs]

theorem binary64_KJPerKcal :
    binary64 OpenMM_KJPerKcal = some (4710765210229539 / 1125899906842624) := by
  have h := binary64_eval 523 125 4710765210229539 (-50) (by decide) (by decide) (by norm_num)
    (by decide!) (by decide)
  have h50 : Int.toNat 50 = 50 := rfl
  norm_num [partsToRat, h50] at h
  rw [← h]
  norm_num [OpenMM_KJPerKcal]

theorem binary64_KcalPerKJ :
    OpenMM_KcalPerKJ_double = some (2152772288418019 / 9007199254740992) := by
  have h := binary64_eval 1125899906842624 4710765210229539 8611089153672076 (-55)
    (by decide) (by decide) (by norm_num) (by decide!) (by decide)
  have h55 : Int.toNat 55 = 55 := rfl
  norm_num [partsToRat, h55] at h
  have h1 : binary64 (1.0 : ℚ) = some 1 := by
    have : (1.0 : ℚ) = 1 := by norm_num
    rw [this, binary64_one]
  have h2 : binary64 (4.184 : ℚ) = some (4710765210229539 / 1125899906842624) := by
    have := binary64_KJPerKcal
    simpa only [OpenMM_KJPerKcal] using this
  unfold OpenMM_KcalPerKJ_double
  rw [h1, h2]
  simp only [Option.some_bind, ddiv]
  rw [if_neg (by norm_num), ← h]
  norm_num

theorem dmul_NmPerAngstrom :
    dmul (3602879701896397 / 36028797018963968) 10 = some 1 := by
  have h := binary64_eval 18014398509481985 18014398509481984 4503599627370496 (-52)
    (by decide) (by decide) (by norm_num) (by decide!) (by decide)
  have h52 : Int.toNat 52 = 52 := rfl
  norm_num [partsToRat, h52] at h
  unfold dmul
  rw [← h]
  norm_num

theorem dmul_PsPerFs :
    dmul (1152921504606847 / 1152921504606846976) 1000 = some 1 := by
  have h := binary64_eval 144115188075855875 144115188075855872 4503599627370496 (-52)
    (by decide) (by decide) (by norm_num) (by decide!) (by decide)
  have h52 : Int.toNat 52 = 52 := rfl
  norm_num [partsToRat, h52] at h
  unfold dmul
  rw [← h]
  norm_num

theorem dmul_KJPerKcal :
    dmul (4710765210229539 / 1125899906842624) (2152772288418019 / 9007199254740992)
      = some 1 := by
  have h := binary64_eval 10141204801825835040630173663241 10141204801825835211973625643008
    4503599627370496 (-52) (by decide) (by decide) (by norm_num) (by decide!) (by decide)
  have h52 : Int.toNat 52 = 52 := rfl
  norm_num [partsToRat, h52] at h
  unfold dmul
  rw [← h]
  norm_num

/-- C3: each unit constant has the value written in its definition (0.1, 10.0,
0.001, 1000.0, 4.184, 1.0/4.184) and the three products are exactly 1:
`OpenMM_NmPerAngstrom * OpenMM_AngstromsPerNm = 1`,
`OpenMM_PsPerFs * OpenMM_FsPerPs = 1`, `OpenMM_KJPerKcal * OpenMM_KcalPerKJ = 1`.
The same three products computed on the stored doubles (IEEE-754 binary64,
round to nearest even) also compare equal to the double `1.0`. -/
theorem C3_unit_constant_products :
    (OpenMM_NmPerAngstrom = 1 / 10 ∧ OpenMM_AngstromsPerNm = 10
      ∧ OpenMM_PsPerFs = 1 / 1000 ∧ OpenMM_FsPerPs = 1000
      ∧ OpenMM_KJPerKcal = 4184 / 1000 ∧ OpenMM_KcalPerKJ = 1 / (4184 / 1000))
    ∧ (OpenMM_NmPerAngstrom * OpenMM_AngstromsPerNm = 1
      ∧ OpenMM_PsPerFs * OpenMM_FsPerPs = 1
      ∧ OpenMM_KJPerKcal * OpenMM_KcalPerKJ = 1)
    ∧ (doubleConst 1.0 = some 1
      ∧ doubleProduct (doubleConst OpenMM_NmPerAngstrom) (doubleConst OpenMM_AngstromsPerNm)
          = doubleConst 1.0
      ∧ doubleProduct (doubleConst OpenMM_PsPerFs) (doubleConst OpenMM_FsPerPs)
          = doubleConst 1.0
      ∧ doubleProduct (doubleConst OpenMM_KJPerKcal) OpenMM_KcalPerKJ_double
          = doubleConst 1.0) := by
  have hone : doubleConst 1.0 = some 1 := by
    have : (1.0 : ℚ) = 1 := by norm_num
    rw [doubleConst, this, binary64_one]
  refine ⟨?_, ?_, hone, ?_, ?_, ?_⟩
  · refine ⟨?_, ?_, ?_, ?_, ?_, ?_⟩ <;>
      norm_num [OpenMM_NmPerAngstrom, OpenMM_AngstromsPerNm, OpenMM_PsPerFs, OpenMM_FsPerPs,
        OpenMM_KJPerKcal, OpenMM_KcalPerKJ]
  · refine ⟨?_, ?_, ?_⟩ <;>
      norm_num [OpenMM_NmPerAngstrom, OpenMM_AngstromsPerNm, OpenMM_PsPerFs, OpenMM_FsPerPs,
        OpenMM_KJPerKcal, OpenMM_KcalPerKJ]
  · rw [hone, doubleConst, doubleConst, binary64_NmPerAngstrom, binary64_AngstromsPerNm]
    simp only [doubleProduct, Option.some_bind]
    exact dmul_NmPerAngstrom
  · rw [hone, doubleConst, doubleConst, binary64_PsPerFs, binary64_FsPerPs]
    simp only [doubleProduct, Option.some_bind]
    exact dmul_PsPerFs
  · rw [hone, doubleConst, binary64_KJPerKcal, binary64_KcalPerKJ]
    simp only [doubleProduct, Option.some_bind]
    exact dmul_KJPerKcal

/-- C10: `OpenMM_SigmaPerVdwRadius` is 1.78179743628068, and this is the value
`2*2^(-1/6) = 2^(5/6)` to within 1e-14: in exact rational arithmetic
`(c - 1e-14)^6 < 32 < (c + 1e-14)^6`, and over the reals
`|c - 2 * 2^(-1/6)| < 1e-14` with `2 * 2^(-1/6) = 2^(5/6)`. -/
theorem C10_sigma_per_vdw_radius :
    OpenMM_SigmaPerVdwRadius = 178179743628068 / 100000000000000
    ∧ (OpenMM_SigmaPerVdwRadius - 1 / 10 ^ 14) ^ 6 < 32
    ∧ 32 < (OpenMM_SigmaPerVdwRadius + 1 / 10 ^ 14) ^ 6
    ∧ (2 : ℝ) * (2 : ℝ) ^ (-(1 / 6) : ℝ) = (2 : ℝ) ^ ((5 / 6 : ℝ))
    ∧ |((OpenMM_SigmaPerVdwRadius : ℚ) : ℝ) - 2 * (2 : ℝ) ^ (-(1 / 6) : ℝ)| < 1 / 10 ^ 14 := by
  have hval : OpenMM_SigmaPerVdwRadius = 178179743628068 / 100000000000000 := by
    norm_num [OpenMM_SigmaPerVdwRadius]
  have hlo : (OpenMM_SigmaPerVdwRadius - 1 / 10 ^ 14) ^ 6 < 32 := by
    rw [hval]; norm_num
  have hhi : 32 < (OpenMM_SigmaPerVdwRadius + 1 / 10 ^ 14) ^ 6 := by
    rw [hval]; norm_num
  have hx0 : (0 : ℝ) < 2 * (2 : ℝ) ^ (-(1 / 6) : ℝ) := by positivity
  have hx6 : (2 * (2 : ℝ) ^ (-(1 / 6) : ℝ)) ^ 6 = 32 := by
    rw [mul_pow, ← Real.rpow_natCast ((2 : ℝ) ^ (-(1 / 6) : ℝ)) 6,
      ← Real.rpow_mul (by norm_num : (0 : ℝ) ≤ 2)]
    norm_num
  have hpow : (2 : ℝ) * (2 : ℝ) ^ (-(1 / 6) : ℝ) = (2 : ℝ) ^ ((5 / 6 : ℝ)) := by
    have h1 : (2 : ℝ) ^ ((5 / 6 : ℝ)) = (2 : ℝ) ^ ((1 : ℝ) + (-(1 / 6) : ℝ)) := by
      norm_num
    rw [h1, Real.rpow_add (by norm_num : (0 : ℝ) < 2), Real.rpow_one]
  have hloR : (((OpenMM_SigmaPerVdwRadius : ℚ) : ℝ) - 1 / 10 ^ 14) ^ 6
      < (2 * (2 : ℝ) ^ (-(1 / 6) : ℝ)) ^ 6 := by
    rw [hx6]
    have := (Rat.cast_lt (K := ℝ)).2 hlo
    push_cast at this
    exact this
  have hhiR : (2 * (2 : ℝ) ^ (-(1 / 6) : ℝ)) ^ 6
      < (((OpenMM_SigmaPerVdwRadius : ℚ) : ℝ) + 1 / 10 ^ 14) ^ 6 := by
    rw [hx6]
    have := (Rat.cast_lt (K := ℝ)).2 hhi
    push_cast at this
    exact this
  have hc0 : (0 : ℝ) ≤ ((OpenMM_SigmaPerVdwRadius : ℚ) : ℝ) + 1 / 10 ^ 14 := by
    rw [hval]; push_cast; norm_num
  have h1 := lt_of_pow_lt_pow_left₀ 6 hx0.le hloR
  have h2 := lt_of_pow_lt_pow_left₀ 6 hc0 hhiR
  refine ⟨hval, hlo, hhi, hpow, ?_⟩
  rw [abs_lt]
  constructor <;> linarith

/-! ### The IEEE-754 product -/

theorem roundNearestEven_exact (q D : Nat) (hD : 0 < D) : roundNearestEven (q * D) D = q := by
  unfold roundNearestEven
  have h1 : q * D / D = q := Nat.mul_div_cancel q hD
  have h2 : q * D % D = 0 := Nat.mul_mod_left q D
  simp only [h1, h2]
  rw [if_pos (by omega)]

theorem floorLog2_unique (n d : Nat) (hn : 0 < n) (hd : 0 < d) (k : Int)
    (h1 : (2 : ℚ) ^ k ≤ (n : ℚ) / d) (h2 : (n : ℚ) / d < (2 : ℚ) ^ (k + 1)) :
    floorLog2 n d = k := by
  obtain ⟨g1, g2⟩ := floorLog2_spec n d hn hd
  have hlt1 : (2 : ℚ) ^ k < (2 : ℚ) ^ (floorLog2 n d + 1) := lt_of_le_of_lt h1 g2
  have hlt2 : (2 : ℚ) ^ floorLog2 n d < (2 : ℚ) ^ (k + 1) := lt_of_le_of_lt g1 h2
  have a1 := (zpow_lt_zpow_iff_right₀ (by norm_num : (1 : ℚ) < 2)).1 hlt1
  have a2 := (zpow_lt_zpow_iff_right₀ (by norm_num : (1 : ℚ) < 2)).1 hlt2
  omega

/-- The fraction handed to the rounding functions has the value `m * 2^e`. -/
theorem frac_value (m : Nat) (e : Int) :
    ((m * 2 ^ e.toNat : Nat) : ℚ) / ((2 ^ (-e).toNat : Nat) : ℚ) = (m : ℚ) * (2 : ℚ) ^ e := by
  by_cases h : 0 ≤ e
  · obtain ⟨j, rfl⟩ := Int.eq_ofNat_of_zero_le h
    have : (-(j : Int)).toNat = 0 := by omega
    simp [this]
  · have h' : 0 ≤ -e := by omega
    obtain ⟨j, hj⟩ := Int.eq_ofNat_of_zero_le h'
    have he : e = -(j : Int) := by omega
    subst he
    have : (-(j : Int)).toNat = 0 := by omega
    simp [this, div_eq_mul_inv]

theorem significand_exact (n d M : Nat) (hd : 0 < d) (e : Int)
    (hv : (n : ℚ) / d = (M : ℚ) * (2 : ℚ) ^ e) :
    (if e ≥ 0 then roundNearestEven n (d * 2 ^ e.toNat)
      else roundNearestEven (n * 2 ^ (-e).toNat) d) = M := by
  have hdq : (0 : ℚ) < d := by exact_mod_cast hd
  by_cases h : e ≥ 0
  · obtain ⟨j, rfl⟩ := Int.eq_ofNat_of_zero_le h
    simp only [h, if_true, Int.toNat_ofNat]
    have hn : n = M * (d * 2 ^ j) := by
      rw [div_eq_iff hdq.ne', zpow_natCast] at hv
      have : ((n : ℕ) : ℚ) = ((M * (d * 2 ^ j) : ℕ) : ℚ) := by
        push_cast; rw [hv]; ring
      exact_mod_cast this
    rw [hn]
    exact roundNearestEven_exact M _ (by positivity)
  · have h' : 0 ≤ -e := by omega
    obtain ⟨j, hj⟩ := Int.eq_ofNat_of_zero_le h'
    have he : e = -(j : Int) := by omega
    subst he
    simp only [h, if_false, neg_neg, Int.toNat_ofNat]
    have hn : n * 2 ^ j = M * d := by
      rw [div_eq_iff hdq.ne', zpow_neg, zpow_natCast] at hv
      have hp : (0 : ℚ) < 2 ^ j := by positivity
      have : ((n * 2 ^ j : ℕ) : ℚ) = ((M * d : ℕ) : ℚ) := by
        push_cast; rw [hv]; field_simp
      exact_mod_cast this
    rw [hn]
    exact roundNearestEven_exact M _ hd

theorem scaled_exact (n d M j : Nat) (hd : 0 < d)
    (hv : (n : ℚ) / d = (M : ℚ) * (2 : ℚ) ^ (-(j : Int))) : n * 2 ^ j = M * d := by
  have hdq : (0 : ℚ) < d := by exact_mod_cast hd
  rw [div_eq_iff hdq.ne', zpow_neg, zpow_natCast] at hv
  have hp : (0 : ℚ) < 2 ^ j := by positivity
  have : ((n * 2 ^ j : ℕ) : ℚ) = ((M * d : ℕ) : ℚ) := by
    push_cast; rw [hv]; field_simp
  exact_mod_cast this

namespace Double

theorem mkFinite_eq (neg : Bool) (expo : Fin 2047) (frac : Fin (2 ^ 52)) :
    mkFinite neg expo.val frac.val = finite neg expo frac := by
  unfold mkFinite
  rw [dif_pos ⟨expo.isLt, frac.isLt⟩]

/-- Rounding a value that is already a double returns that double. -/
theorem round_exact (neg : Bool) (m : Nat) (e : Int) (expo : Fin 2047) (frac : Fin (2 ^ 52))
    (hm : 0 < m)
    (hv : (m : ℚ) * (2 : ℚ) ^ e = (sig expo frac : ℚ) * (2 : ℚ) ^ exp expo) :
    round neg m e = finite neg expo frac := by
  have h2 : (2 : ℚ) ≠ 0 := by norm_num
  have hn : 0 < m * 2 ^ e.toNat := by positivity
  have hd : 0 < 2 ^ (-e).toNat := by positivity
  have hval : ((m * 2 ^ e.toNat : Nat) : ℚ) / ((2 ^ (-e).toNat : Nat) : ℚ)
      = (sig expo frac : ℚ) * (2 : ℚ) ^ exp expo := by
    rw [frac_value, hv]
  have hF := frac.isLt
  have hE := expo.isLt
  unfold round
  rw [if_neg (Nat.pos_iff_ne_zero.1 hm)]
  simp only
  by_cases h0 : expo.val = 0
  · -- zero exponent field: the value is `frac * 2^(-1074)`
    have hsig : sig expo frac = frac.val := by simp [sig, h0]
    have hexp : exp expo = -1074 := by simp [exp, h0]
    rw [hsig, hexp] at hval
    have hfpos : 0 < frac.val := by
      rcases Nat.eq_zero_or_pos frac.val with h | h
      · exfalso
        have h0q : (m : ℚ) * (2 : ℚ) ^ e = 0 := by rw [hv, hsig, h]; simp
        have hmq : (0 : ℚ) < (m : ℚ) * (2 : ℚ) ^ e := by
          have : (0 : ℚ) < m := by exact_mod_cast hm
          positivity
        linarith
      · exact h
    have hlt : floorLog2 (m * 2 ^ e.toNat) (2 ^ (-e).toNat) < -1022 := by
      obtain ⟨g1, _⟩ := floorLog2_spec _ _ hn hd
      rw [hval] at g1
      have hb : (frac.val : ℚ) * (2 : ℚ) ^ (-1074 : Int) < (2 : ℚ) ^ (-1022 : Int) := by
        have : (2 : ℚ) ^ (-1022 : Int) = (2 : ℚ) ^ (52 : Nat) * (2 : ℚ) ^ (-1074 : Int) := by
          rw [← zpow_natCast, ← zpow_add₀ h2]; norm_num
        rw [this]
        apply mul_lt_mul_of_pos_right _ (by positivity)
        exact_mod_cast hF
      have := lt_of_le_of_lt g1 hb
      exact (zpow_lt_zpow_iff_right₀ (by norm_num : (1 : ℚ) < 2)).1 this
    rw [if_pos hlt]
    have hex : m * 2 ^ e.toNat * 2 ^ 1074 = frac.val * 2 ^ (-e).toNat :=
      scaled_exact _ _ _ 1074 hd hval
    rw [hex, roundNearestEven_exact _ _ hd, if_pos hF]
    have := mkFinite_eq neg expo frac
    rw [h0] at this
    exact this
  · -- normal: the value is `(2^52 + frac) * 2^(expo - 1075)`
    have hsig : sig expo frac = 2 ^ 52 + frac.val := by simp [sig, h0]
    have hexp : exp expo = (expo.val : Int) - 1075 := by simp [exp, h0]
    rw [hsig, hexp] at hval
    have hk : floorLog2 (m * 2 ^ e.toNat) (2 ^ (-e).toNat) = (expo.val : Int) - 1075 + 52 := by
      apply floorLog2_unique _ _ hn hd
      · rw [hval, zpow_add₀ h2, mul_comm]
        apply mul_le_mul_of_nonneg_right _ (by positivity)
        have : (2 : ℚ) ^ (52 : Int) = ((2 ^ 52 : Nat) : ℚ) := by norm_num
        rw [this]
        exact_mod_cast Nat.le_add_right _ _
      · rw [hval]
        have : (2 : ℚ) ^ ((expo.val : Int) - 1075 + 52 + 1)
            = ((2 ^ 53 : Nat) : ℚ) * (2 : ℚ) ^ ((expo.val : Int) - 1075) := by
          have h53 : ((2 ^ 53 : Nat) : ℚ) = (2 : ℚ) ^ (53 : Int) := by norm_num
          rw [h53, ← zpow_add₀ h2]
          congr 1
          ring
        rw [this]
        apply mul_lt_mul_of_pos_right _ (by positivity)
        have : 2 ^ 52 + frac.val < 2 ^ 53 := by omega
        exact_mod_cast this
    rw [if_neg (by rw [hk]; omega)]
    have hparts : binary64Parts (m * 2 ^ e.toNat) (2 ^ (-e).toNat)
        = (2 ^ 52 + frac.val, (expo.val : Int) - 1075) := by
      unfold binary64Parts
      simp only
      rw [hk]
      have he0 : (expo.val : Int) - 1075 + 52 - 52 = (expo.val : Int) - 1075 := by ring
      rw [he0, significand_exact _ _ (2 ^ 52 + frac.val) hd _ hval]
      rw [if_neg (by omega)]
    rw [hparts]
    simp only
    have h1 : ((expo.val : Int) - 1075 + 1075).toNat = expo.val := by
      rw [sub_add_cancel]; exact Int.toNat_natCast _
    have h3 : 2 ^ 52 + frac.val - 2 ^ 52 = frac.val := by omega
    rw [h1, h3]
    exact mkFinite_eq neg expo frac

theorem one_eq : one = finite false ⟨1023, by decide⟩ ⟨0, by decide⟩ := by
  unfold one mkFinite
  rw [dif_pos ⟨by decide, by decide⟩]

theorem zero_eq : zero = finite false ⟨0, by decide⟩ ⟨0, by decide⟩ := by
  unfold zero mkFinite
  rw [dif_pos ⟨by decide, by decide⟩]

/-- Multiplying by the double `1.0` returns the other factor. -/
theorem mul_one_eq (x : Double) : x * one = x := by
  rw [one_eq]
  show mul x _ = x
  cases x with
  | nan => rfl
  | inf s =>
    simp [mul, sig]
  | finite s expo frac =>
    have hsig1 : sig (⟨1023, by decide⟩ : Fin 2047) (⟨0, by decide⟩ : Fin (2 ^ 52)) = 2 ^ 52 := by
      simp [sig]
    have hexp1 : exp (⟨1023, by decide⟩ : Fin 2047) = -52 := by
      simp [exp]
    simp only [mul, hsig1, hexp1, Bool.xor_false]
    by_cases hz : sig expo frac = 0
    · have hE : expo.val = 0 := by
        by_contra h
        simp [sig, h] at hz
      have hF : frac.val = 0 := by
        simpa [sig, hE] using hz
      rw [hz, Nat.zero_mul]
      unfold round
      rw [if_pos rfl]
      have := mkFinite_eq s expo frac
      rw [hE, hF] at this
      exact this
    · apply round_exact
      · have : 0 < sig expo frac := Nat.pos_of_ne_zero hz
        positivity
      · rw [Nat.cast_mul, zpow_add₀ (by norm_num : (2 : ℚ) ≠ 0)]
        have h52 : ((2 ^ 52 : Nat) : ℚ) * (2 : ℚ) ^ (-52 : Int) = 1 := by norm_num
        linear_combination ((sig expo frac : ℚ) * (2 : ℚ) ^ exp expo) * h52

/-- A finite double times `0.0` is a zero of the sign of that double. -/
theorem finite_mul_zero (s : Bool) (expo : Fin 2047) (frac : Fin (2 ^ 52)) :
    finite s expo frac * zero = finite s ⟨0, by decide⟩ ⟨0, by decide⟩ := by
  rw [zero_eq]
  show mul _ _ = _
  have hsig0 : sig (⟨0, by decide⟩ : Fin 2047) (⟨0, by decide⟩ : Fin (2 ^ 52)) = 0 := by
    simp [sig]
  simp only [mul, hsig0, Nat.mul_zero, Bool.xor_false]
  unfold round
  rw [if_pos rfl]
  unfold mkFinite
  rw [dif_pos ⟨by decide, by decide⟩]

/-- An infinity times `0.0` is NaN. -/
theorem inf_mul_zero (s : Bool) : inf s * zero = nan := by
  rw [zero_eq]
  show mul _ _ = _
  simp [mul, sig]

/-- NaN times anything is NaN. -/
theorem nan_mul (x : Double) : nan * x = nan := by
  show mul _ _ = _
  cases x <;> rfl

end Double

/-! ### `OpenMM_Vec3_scale` -/

theorem Vec3_scale_out {α : Type} [Mul α] (mem : Nat → α) (inp out : Nat) (s : α)
    (h : inp + 3 ≤ out ∨ out + 3 ≤ inp ∨ inp = out) (i : Nat) (hi : i < 3) :
    OpenMM_Vec3_scale mem inp s out (out + i) = mem (inp + i) * s := by
  unfold OpenMM_Vec3_scale
  have hcases : i = 0 ∨ i = 1 ∨ i = 2 := by omega
  rcases hcases with rfl | rfl | rfl
  · rw [store_other _ _ _ _ (by omega), store_other _ _ _ _ (by omega), store_same]
  · rw [store_other _ _ _ _ (by omega), store_same, store_other _ _ _ _ (by omega)]
  · rw [store_same, store_other _ _ _ _ (by omega), store_other _ _ _ _ (by omega)]

theorem Vec3_scale_frame {α : Type} [Mul α] (mem : Nat → α) (inp out : Nat) (s : α) (x : Nat)
    (hx : x < out ∨ out + 3 ≤ x) :
    OpenMM_Vec3_scale mem inp s out x = mem x := by
  unfold OpenMM_Vec3_scale
  rw [store_other _ _ _ _ (by omega), store_other _ _ _ _ (by omega),
    store_other _ _ _ _ (by omega)]

/-- C9 (as amended): `OpenMM_Vec3_scale` is component-wise scaling on doubles.
For `in` and `out` distinct (non-overlapping) arrays, after the call
`out[i]` is the IEEE-754 product `in[i] * s` for `i = 0, 1, 2`, `in` is
unchanged, and so is every cell outside `out`. Consequently scaling by `1.0`
returns the input vector; scaling by `0.0` gives a zero in every component whose
input is finite and NaN in every component whose input is an infinity or NaN;
and over exact arithmetic (the same code on rationals) scaling by `a` (into any
array `tmp` distinct from `in`, or `in` itself) and then by `b` gives the same
`out` as scaling by `a * b`. -/
theorem C9_vec3_scale (mem : Nat → Double) (inp out : Nat) (s : Double)
    (hdis : inp + 3 ≤ out ∨ out + 3 ≤ inp) :
    (∀ i, i < 3 → OpenMM_Vec3_scale mem inp s out (out + i) = mem (inp + i) * s)
    ∧ (∀ i, i < 3 → OpenMM_Vec3_scale mem inp s out (inp + i) = mem (inp + i))
    ∧ (∀ x, (x < out ∨ out + 3 ≤ x) → OpenMM_Vec3_scale mem inp s out x = mem x)
    ∧ (∀ i, i < 3 → OpenMM_Vec3_scale mem inp Double.one out (out + i) = mem (inp + i))
    ∧ (∀ i, i < 3 → (mem (inp + i)).isFinite = true →
        (OpenMM_Vec3_scale mem inp Double.zero out (out + i)).isZero = true)
    ∧ (∀ i, i < 3 → (mem (inp + i)).isFinite = false →
        OpenMM_Vec3_scale mem inp Double.zero out (out + i) = Double.nan)
    ∧ (∀ (memQ : Nat → ℚ) (a b : ℚ) (tmp : Nat),
        (inp + 3 ≤ tmp ∨ tmp + 3 ≤ inp ∨ inp = tmp) →
        (tmp + 3 ≤ out ∨ out + 3 ≤ tmp ∨ tmp = out) → ∀ i, i < 3 →
        OpenMM_Vec3_scale (OpenMM_Vec3_scale memQ inp a tmp) tmp b out (out + i)
          = OpenMM_Vec3_scale memQ inp (a * b) out (out + i)) := by
  have hdis' : inp + 3 ≤ out ∨ out + 3 ≤ inp ∨ inp = out := by omega
  refine ⟨?_, ?_, ?_, ?_, ?_, ?_, ?_⟩
  · intro i hi
    exact Vec3_scale_out mem inp out s hdis' i hi
  · intro i hi
    exact Vec3_scale_frame mem inp out s (inp + i) (by omega)
  · intro x hx
    exact Vec3_scale_frame mem inp out s x hx
  · intro i hi
    rw [Vec3_scale_out mem inp out Double.one hdis' i hi, Double.mul_one_eq]
  · intro i hi hfin
    rw [Vec3_scale_out mem inp out Double.zero hdis' i hi]
    cases hx : mem (inp + i) with
    | nan => rw [hx] at hfin; simp [Double.isFinite] at hfin
    | inf sgn => rw [hx] at hfin; simp [Double.isFinite] at hfin
    | finite sgn expo frac =>
      rw [Double.finite_mul_zero]
      simp [Double.isZero, Double.sig]
  · intro i hi hfin
    rw [Vec3_scale_out mem inp out Double.zero hdis' i hi]
    cases hx : mem (inp + i) with
    | nan => exact Double.nan_mul _
    | inf sgn => exact Double.inf_mul_zero sgn
    | finite sgn expo frac => rw [hx] at hfin; simp [Double.isFinite] at hfin
  · intro memQ a b tmp h1 h2 i hi
    rw [Vec3_scale_out _ tmp out b h2 i hi, Vec3_scale_out memQ inp tmp a h1 i hi,
      Vec3_scale_out memQ inp out (a * b) hdis' i hi, mul_assoc]

/-- Witness for C9: `in` at address 0 holds the double nearest 0.1 in each
cell, `out` is at address 3, and the scale factor is `3.0`: `out[1]` is the
rounded product `0x1.3333333333334p-2`, and `in[1]` still holds 0.1. -/
theorem C9_vec3_scale_witness :
    (0 + 3 ≤ 3 ∨ 3 + 3 ≤ 0)
    ∧ OpenMM_Vec3_scale (fun _ => Double.mkFinite false 1019 0x999999999999A) 0
        (Double.mkFinite false 1024 0x8000000000000) 3 (3 + 1)
        = Double.mkFinite false 1021 0x3333333333334
    ∧ OpenMM_Vec3_scale (fun _ => Double.mkFinite false 1019 0x999999999999A) 0
        (Double.mkFinite false 1024 0x8000000000000) 3 (0 + 1)
        = Double.mkFinite false 1019 0x999999999999A := by
  have h := C9_vec3_scale (fun _ => Double.mkFinite false 1019 0x999999999999A) 0 3
    (Double.mkFinite false 1024 0x8000000000000) (by decide)
  refine ⟨by decide, ?_, ?_⟩
  · rw [h.1 1 (by decide)]
    decide!
  · exact h.2.1 1 (by decide)

/-- Counterexample to C9 as stated: with `in = (0.0, +inf, 2.0)` at address 0
and `out` at address 3, scaling by `0.0` leaves NaN in `out[1]`, which is not a
zero; so scaling by 0 does not return (0,0,0) for every input vector. -/
theorem C9_scale_by_zero_counterexample :
    OpenMM_Vec3_scale
        (fun a => if a = 1 then Double.inf false
          else if a = 2 then Double.mkFinite false 1024 0 else Double.zero)
        0 Double.zero 3 (3 + 1) = Double.nan
    ∧ Double.isZero Double.nan = false
    ∧ ¬ (∀ (mem : Nat → Double) (inp out : Nat), (inp + 3 ≤ out ∨ out + 3 ≤ inp) →
        ∀ i, i < 3 → (OpenMM_Vec3_scale mem inp Double.zero out (out + i)).isZero = true) := by
  have hval : OpenMM_Vec3_scale
        (fun a => if a = 1 then Double.inf false
          else if a = 2 then Double.mkFinite false 1024 0 else Double.zero)
        0 Double.zero 3 (3 + 1) = Double.nan := by
    rw [Vec3_scale_out _ 0 3 Double.zero (by decide) 1 (by decide)]
    exact Double.inf_mul_zero false
  refine ⟨hval, rfl, ?_⟩
  intro hall
  have := hall (fun a => if a = 1 then Double.inf false
          else if a = 2 then Double.mkFinite false 1024 0 else Double.zero)
        0 3 (by decide) 1 (by decide)
  rw [hval] at this
  exact absurd this (by decide)

end OpenMM
